import Mathlib

/-!
Shallow embedding of the Mandelbrot renderer (`src/main.rs`) over exact
rationals.  The Rust code computes with `f64`; here every numeric value is a
`ℚ`, so each definition mirrors the source expression exactly, with the single
systematic translation that the escape test `z.norm() > 2.0` (a real square
root) becomes the equivalent exact test `4 < normSq z`, since
`√(re² + im²) > 2 ↔ re² + im² > 4`.  That equivalence is proved below
(`two_lt_abs_iff`) and the escape-time theorem is stated with the
true complex modulus `Complex.abs`.
-/

/-- `const WIDTH: u32 = 800;` -/
def WIDTH : ℕ := 800

/-- `const HEIGHT: u32 = 600;` -/
def HEIGHT : ℕ := 600

/-- `const MAX_ITER: u32 = 100;` -/
def MAX_ITER : ℕ := 100

/-- `const ZOOM_SPEED: f64 = 1.01;` -/
def ZOOM_SPEED : ℚ := 101 / 100

/-- `struct Mandelbrot { center_x: f64, center_y: f64, zoom: f64 }` -/
structure Mandelbrot where
  center_x : ℚ
  center_y : ℚ
  zoom : ℚ
deriving DecidableEq, Repr

/-- `Mandelbrot::new()`: `center_x: -1.25, center_y: 0.0, zoom: 1.0`. -/
def Mandelbrot.new : Mandelbrot :=
  { center_x := -5/4, center_y := 0, zoom := 1 }

/-- Squared modulus of a complex number represented as a pair `(re, im)`.
The Rust code calls `z.norm()` (the square root of this); comparisons with
`2.0` are embedded as comparisons of `normSq` with `4`. -/
def normSq (z : ℚ × ℚ) : ℚ := z.1 * z.1 + z.2 * z.2

/-- One update `z = z * z + c` of `num::Complex<f64>` arithmetic:
`(a+bi)*(a+bi) = (a*a - b*b) + (a*b + b*a)i`, then add `c`. -/
def zstep (z c : ℚ × ℚ) : ℚ × ℚ :=
  (z.1 * z.1 - z.2 * z.2 + c.1, z.1 * z.2 + z.2 * z.1 + c.2)

/-- The `for n in 0..MAX_ITER` loop of `Mandelbrot::mandelbrot`:
`fuel` is the number of loop iterations still to run (`MAX_ITER - n`).
Each iteration returns `n` if `|z| > 2.0` (i.e. `4 < normSq z`), otherwise
updates `z = z * z + c`; when the loop is exhausted it returns `MAX_ITER`. -/
def escapeLoop (c : ℚ × ℚ) : ℚ × ℚ → ℕ → ℕ → ℕ
  | _, _, 0 => MAX_ITER
  | z, n, fuel + 1 =>
    if 4 < normSq z then n else escapeLoop c (zstep z c) (n + 1) fuel

/-- `Mandelbrot::mandelbrot(&self, x: u32, y: u32) -> u32`.
Maps the pixel to the complex plane and runs the escape-time loop from
`z = 0 + 0i`. -/
def Mandelbrot.mandelbrot (m : Mandelbrot) (x y : ℕ) : ℕ :=
  -- let aspect_ratio = WIDTH as f64 / HEIGHT as f64;
  let aspect : ℚ := (WIDTH : ℚ) / (HEIGHT : ℚ)
  -- let zoom_width = 2.5 / self.zoom;
  let zoom_width : ℚ := (5/2) / m.zoom
  -- x_coord = self.center_x + (x - WIDTH/2.0) * zoom_width / WIDTH * aspect_ratio
  let x_coord : ℚ :=
    m.center_x + ((x : ℚ) - (WIDTH : ℚ) / 2) * zoom_width / (WIDTH : ℚ) * aspect
  -- y_coord = self.center_y + (y - HEIGHT/2.0) * zoom_width / HEIGHT
  let y_coord : ℚ :=
    m.center_y + ((y : ℚ) - (HEIGHT : ℚ) / 2) * zoom_width / (HEIGHT : ℚ)
  escapeLoop (x_coord, y_coord) (0, 0) 0 MAX_ITER

/-- The coordinate mapping performed inside `Mandelbrot::mandelbrot`
(lines 101-108 of `main.rs`), exposed as its own function so claims about
the mapping can be stated. `Mandelbrot.mandelbrot` is proved to run the
escape loop on exactly this point. -/
def coordMap (m : Mandelbrot) (x y : ℕ) : ℚ × ℚ :=
  let aspect : ℚ := (WIDTH : ℚ) / (HEIGHT : ℚ)
  let zoom_width : ℚ := (5/2) / m.zoom
  (m.center_x + ((x : ℚ) - (WIDTH : ℚ) / 2) * zoom_width / (WIDTH : ℚ) * aspect,
   m.center_y + ((y : ℚ) - (HEIGHT : ℚ) / 2) * zoom_width / (HEIGHT : ℚ))

/-- The coordinate mapping as the specification words it: pixel coordinates
taken relative to the buffer center, scaled by `zoom_width` over the
corresponding dimension, offset by the view center, with the aspect-ratio
factor `width / height` applied to the horizontal axis only.  Stated
separately from `coordMap` (which mirrors the source expression) so the two
can be compared. -/
def coordMapSpec (m : Mandelbrot) (x y : ℕ) : ℚ × ℚ :=
  let zoom_width : ℚ := (5/2) / m.zoom
  (m.center_x +
     ((x : ℚ) - (WIDTH : ℚ) / 2) * (zoom_width / (WIDTH : ℚ)) *
       ((WIDTH : ℚ) / (HEIGHT : ℚ)),
   m.center_y + ((y : ℚ) - (HEIGHT : ℚ) / 2) * (zoom_width / (HEIGHT : ℚ)))

/-- The RGBA bytes chosen by `Mandelbrot::draw` for an iteration count `m`.
`std::cmp::min(255, m*255/50) as u8`: the `as u8` cast truncates mod 256
(a no-op here since the `min` already bounds the value by 255); `m` is a
`u32` holding a loop count `≤ MAX_ITER`, so `m * 255` cannot overflow. -/
def rgbaOf (m : ℕ) : List ℕ :=
  if m = MAX_ITER then
    [0, 0, 0, 255]
  else
    [min 255 (m * 255 / 50) % 256, min 255 (m * 255 / 100) % 256, 0, 255]

/-- The loop body of `Mandelbrot::draw`: `frame.chunks_exact_mut(4)` walks
complete 4-byte chunks (any trailing `frame.len() % 4` bytes are untouched),
`enumerate` supplies the chunk index `i`, and each chunk is overwritten with
`rgbaOf` of the pixel at `(i % WIDTH, i / WIDTH)`. -/
def drawGo (m : Mandelbrot) : ℕ → List ℕ → List ℕ
  | _, [] => []
  | _, [b] => [b]
  | _, [b, b'] => [b, b']
  | _, [b, b', b''] => [b, b', b'']
  | i, _ :: _ :: _ :: _ :: rest =>
    rgbaOf (m.mandelbrot (i % WIDTH) (i / WIDTH)) ++ drawGo m (i + 1) rest

/-- `Mandelbrot::draw(&self, frame: &mut [u8])`, modelled functionally:
returns the new contents of the frame buffer. -/
def Mandelbrot.draw (m : Mandelbrot) (frame : List ℕ) : List ℕ :=
  drawGo m 0 frame

/-- The per-tick view-state update in `main`:
`mandelbrot.zoom *= ZOOM_SPEED;` — nothing else is mutated. -/
def Mandelbrot.advance (m : Mandelbrot) : Mandelbrot :=
  { m with zoom := m.zoom * ZOOM_SPEED }

/-- The orbit `z_0 = 0, z_{n+1} = z_n * z_n + c` over the rational pairs. -/
def zSeq (c : ℚ × ℚ) : ℕ → ℚ × ℚ
  | 0 => (0, 0)
  | n + 1 => zstep (zSeq c n) c

/-- Embedding of a rational pair as a complex number. -/
def toComplex (p : ℚ × ℚ) : ℂ := ⟨(p.1 : ℝ), (p.2 : ℝ)⟩

/-- The orbit `z_0 = 0, z_{n+1} = z_n² + c` over the true complex numbers,
used to state the escape-time specification with the genuine modulus. -/
def zC (c : ℂ) : ℕ → ℂ
  | 0 => 0
  | n + 1 => zC c n * zC c n + c

/-! ## Basic equations and helper lemmas -/

theorem escapeLoop_succ (c z : ℚ × ℚ) (n fuel : ℕ) :
    escapeLoop c z n (fuel + 1) =
      if 4 < normSq z then n else escapeLoop c (zstep z c) (n + 1) fuel := rfl

theorem mandelbrot_eq (m : Mandelbrot) (x y : ℕ) :
    m.mandelbrot x y = escapeLoop (coordMap m x y) (0, 0) 0 MAX_ITER := rfl

theorem normSq_zero : normSq (0, 0) = 0 := by norm_num [normSq]

theorem zstep_zero (c : ℚ × ℚ) : zstep (0, 0) c = c := by
  cases c with
  | mk a b => simp [zstep]

/-- The escape loop, started at step `n` on the orbit point `zSeq c n` with
`fuel` iterations left, either survives its whole window (returning
`MAX_ITER`) or returns the first index `j` in the window whose orbit point
breaks the threshold. -/
theorem escapeLoop_spec (c : ℚ × ℚ) : ∀ (fuel n : ℕ),
    (escapeLoop c (zSeq c n) n fuel = MAX_ITER ∧
      ∀ k, n ≤ k → k < n + fuel → normSq (zSeq c k) ≤ 4) ∨
    (∃ j, n ≤ j ∧ j < n + fuel ∧ escapeLoop c (zSeq c n) n fuel = j ∧
      4 < normSq (zSeq c j) ∧ ∀ k, n ≤ k → k < j → normSq (zSeq c k) ≤ 4) := by
  intro fuel
  induction fuel with
  | zero =>
    intro n
    left
    exact ⟨rfl, fun k hk1 hk2 => absurd hk2 (by omega)⟩
  | succ f ih =>
    intro n
    rw [escapeLoop_succ]
    by_cases h : 4 < normSq (zSeq c n)
    · right
      refine ⟨n, le_refl n, by omega, if_pos h, h, fun k hk1 hk2 => absurd hk1 (by omega)⟩
    · rw [if_neg h]
      have hz : zstep (zSeq c n) c = zSeq c (n + 1) := rfl
      rw [hz]
      rcases ih (n + 1) with ⟨h1, h2⟩ | ⟨j, hj1, hj2, hj3, hj4, hj5⟩
      · left
        refine ⟨h1, fun k hk1 hk2 => ?_⟩
        rcases Nat.eq_or_lt_of_le hk1 with rfl | hlt
        · exact le_of_not_lt h
        · exact h2 k hlt (by omega)
      · right
        refine ⟨j, by omega, by omega, hj3, hj4, fun k hk1 hk2 => ?_⟩
        rcases Nat.eq_or_lt_of_le hk1 with rfl | hlt
        · exact le_of_not_lt h
        · exact hj5 k hlt hk2

/-- Shared upper bound: the evaluator never exceeds `MAX_ITER`. -/
theorem mandelbrot_le_max (m : Mandelbrot) (x y : ℕ) :
    m.mandelbrot x y ≤ MAX_ITER := by
  rw [mandelbrot_eq]
  have h0 : zSeq (coordMap m x y) 0 = (0, 0) := rfl
  rcases escapeLoop_spec (coordMap m x y) MAX_ITER 0 with ⟨h1, _⟩ | ⟨j, _, hj2, hj3, _, _⟩
  · rw [h0] at h1; omega
  · rw [h0] at hj3; omega

/-! ## Bridge from the rational pairs to genuine complex numbers -/

theorem toComplex_zstep (z c : ℚ × ℚ) :
    toComplex (zstep z c) = toComplex z * toComplex z + toComplex c := by
  apply Complex.ext
  · show ((zstep z c).1 : ℝ) = _
    simp [toComplex, zstep, Complex.mul_re, Complex.add_re]
  · show ((zstep z c).2 : ℝ) = _
    simp [toComplex, zstep, Complex.mul_im, Complex.add_im]

theorem toComplex_zSeq (c : ℚ × ℚ) (n : ℕ) :
    toComplex (zSeq c n) = zC (toComplex c) n := by
  induction n with
  | zero =>
    apply Complex.ext <;> simp [toComplex, zSeq, zC]
  | succ k ih =>
    show toComplex (zstep (zSeq c k) c) = _
    rw [toComplex_zstep, ih]
    rfl

theorem complexNormSq_toComplex (p : ℚ × ℚ) :
    Complex.normSq (toComplex p) = ((normSq p : ℚ) : ℝ) := by
  rw [toComplex, Complex.normSq_mk]
  push_cast [normSq]
  ring

/-- For exact arithmetic, the source's escape test `z.norm() > 2.0` is
equivalent to the embedded test `4 < normSq z`. -/
theorem two_lt_abs_iff (p : ℚ × ℚ) :
    2 < Complex.abs (toComplex p) ↔ 4 < normSq p := by
  have hsq : (Complex.abs (toComplex p)) ^ 2 = ((normSq p : ℚ) : ℝ) := by
    rw [Complex.sq_abs, complexNormSq_toComplex]
  have habs : 0 ≤ Complex.abs (toComplex p) := Complex.abs.nonneg _
  constructor
  · intro h
    have h4 : (4 : ℝ) < ((normSq p : ℚ) : ℝ) := by nlinarith
    exact_mod_cast h4
  · intro h
    have h4 : (4 : ℝ) < ((normSq p : ℚ) : ℝ) := by exact_mod_cast h
    nlinarith

/-! ## Concrete evaluations -/

theorem coordMap_new_00 : coordMap Mandelbrot.new 0 0 = (-35/12, -5/4) := by
  norm_num [coordMap, Mandelbrot.new, WIDTH, HEIGHT]

theorem coordMap_new_origin : coordMap Mandelbrot.new 700 300 = (0, 0) := by
  norm_num [coordMap, Mandelbrot.new, WIDTH, HEIGHT]

theorem normSq_new_00 : 4 < normSq (coordMap Mandelbrot.new 0 0) := by
  rw [coordMap_new_00]
  norm_num [normSq]

theorem mandelbrot_new_00 : Mandelbrot.new.mandelbrot 0 0 = 1 := by
  rw [mandelbrot_eq]
  rw [show MAX_ITER = 99 + 1 from rfl, escapeLoop_succ,
    if_neg (by rw [normSq_zero]; norm_num), zstep_zero]
  rw [show (99 : ℕ) = 98 + 1 from rfl, escapeLoop_succ,
    if_pos (by simpa [MAX_ITER] using normSq_new_00)]

theorem escapeLoop_origin : ∀ (fuel n : ℕ),
    escapeLoop (0, 0) (0, 0) n fuel = MAX_ITER := by
  intro fuel
  induction fuel with
  | zero => intro n; rfl
  | succ f ih =>
    intro n
    rw [escapeLoop_succ, if_neg (by rw [normSq_zero]; norm_num), zstep_zero]
    exact ih (n + 1)

/-! ## List lemmas for the frame buffer -/

theorem drawGo_cons4 (m : Mandelbrot) (i b0 b1 b2 b3 : ℕ) (rest : List ℕ) :
    drawGo m i (b0 :: b1 :: b2 :: b3 :: rest) =
      rgbaOf (m.mandelbrot (i % WIDTH) (i / WIDTH)) ++ drawGo m (i + 1) rest := rfl

theorem rgbaOf_length (n : ℕ) : (rgbaOf n).length = 4 := by
  unfold rgbaOf
  split <;> rfl

theorem exists_cons4 (l : List ℕ) (h : 4 ≤ l.length) :
    ∃ b0 b1 b2 b3 rest, l = b0 :: b1 :: b2 :: b3 :: rest := by
  rcases l with _ | ⟨b0, l0⟩
  · simp at h
  rcases l0 with _ | ⟨b1, l1⟩
  · simp at h
  rcases l1 with _ | ⟨b2, l2⟩
  · simp at h
  rcases l2 with _ | ⟨b3, rest⟩
  · simp at h
  exact ⟨b0, b1, b2, b3, rest, rfl⟩

theorem drawGo_length (m : Mandelbrot) : ∀ (N i : ℕ) (l : List ℕ), l.length ≤ N →
    (drawGo m i l).length = l.length := by
  intro N
  induction N with
  | zero =>
    intro i l hl
    rcases l with _ | ⟨b, t⟩
    · rfl
    · simp at hl
  | succ N ih =>
    intro i l hl
    by_cases h4 : 4 ≤ l.length
    · obtain ⟨b0, b1, b2, b3, rest, rfl⟩ := exists_cons4 l h4
      rw [drawGo_cons4, List.length_append, rgbaOf_length]
      have hr : rest.length ≤ N := by simp at hl; omega
      rw [ih (i + 1) rest hr]
      simp
      omega
    · rcases l with _ | ⟨b0, _ | ⟨b1, _ | ⟨b2, _ | ⟨b3, rest⟩⟩⟩⟩
      · rfl
      · rfl
      · rfl
      · rfl
      · exfalso; simp at h4

/-- The 4 bytes of chunk `p` of `drawGo m i l` are the RGBA bytes of pixel
index `i + p`, whenever the buffer holds that chunk completely. -/
theorem drawGo_getElem (m : Mandelbrot) : ∀ (p i : ℕ) (l : List ℕ),
    4 * (p + 1) ≤ l.length → ∀ j, j < 4 →
    (drawGo m i l)[4 * p + j]? =
      (rgbaOf (m.mandelbrot ((i + p) % WIDTH) ((i + p) / WIDTH)))[j]? := by
  intro p
  induction p with
  | zero =>
    intro i l hl j hj
    obtain ⟨b0, b1, b2, b3, rest, rfl⟩ := exists_cons4 l (by omega)
    rw [drawGo_cons4, List.getElem?_append_left (by rw [rgbaOf_length]; omega)]
    norm_num
  | succ p ih =>
    intro i l hl j hj
    obtain ⟨b0, b1, b2, b3, rest, rfl⟩ := exists_cons4 l (by omega)
    rw [drawGo_cons4, List.getElem?_append_right (by rw [rgbaOf_length]; omega)]
    rw [rgbaOf_length]
    have harith : 4 * (p + 1) + j - 4 = 4 * p + j := by omega
    rw [harith]
    have hrest : 4 * (p + 1) ≤ rest.length := by simp at hl; omega
    rw [ih (i + 1) rest hrest j hj]
    have hidx : i + 1 + p = i + (p + 1) := by omega
    rw [hidx]

/-- Bytes past the last complete 4-byte chunk are left unchanged by the
draw loop (`chunks_exact_mut` never visits them). -/
theorem drawGo_getElem_rem (m : Mandelbrot) : ∀ (N i : ℕ) (l : List ℕ),
    l.length ≤ N → ∀ n, 4 * (l.length / 4) ≤ n →
    (drawGo m i l)[n]? = l[n]? := by
  intro N
  induction N with
  | zero =>
    intro i l hl n hn
    rcases l with _ | ⟨b, t⟩
    · rfl
    · simp at hl
  | succ N ih =>
    intro i l hl n hn
    by_cases h4 : 4 ≤ l.length
    · obtain ⟨b0, b1, b2, b3, rest, rfl⟩ := exists_cons4 l h4
      have hlen : (b0 :: b1 :: b2 :: b3 :: rest).length = rest.length + 4 := by simp
      have hn4 : 4 ≤ n := by
        rw [hlen] at hn
        have : 1 ≤ (rest.length + 4) / 4 := by omega
        omega
      rw [drawGo_cons4, List.getElem?_append_right (by rw [rgbaOf_length]; omega)]
      rw [rgbaOf_length]
      have hr : rest.length ≤ N := by simp at hl; omega
      have hrn : 4 * (rest.length / 4) ≤ n - 4 := by
        rw [hlen] at hn
        omega
      rw [ih (i + 1) rest hr (n - 4) hrn]
      have hsplit : (b0 :: b1 :: b2 :: b3 :: rest)[n]? =
          ([b0, b1, b2, b3] ++ rest)[n]? := rfl
      rw [hsplit, List.getElem?_append_right (by simp; omega)]
      simp
    · rcases l with _ | ⟨b0, _ | ⟨b1, _ | ⟨b2, _ | ⟨b3, rest⟩⟩⟩⟩
      · rfl
      · rfl
      · rfl
      · rfl
      · exfalso; simp at h4

/-- Pixel-level view of `Mandelbrot.draw` on an exactly sized frame. -/
theorem draw_pixel_bytes (m : Mandelbrot) (frame : List ℕ)
    (h : frame.length = WIDTH * HEIGHT * 4) (i j : ℕ)
    (hi : i < WIDTH * HEIGHT) (hj : j < 4) :
    (m.draw frame)[4 * i + j]? =
      (rgbaOf (m.mandelbrot (i % WIDTH) (i / WIDTH)))[j]? := by
  have hW : WIDTH = 800 := rfl
  have hH : HEIGHT = 600 := rfl
  have hlen : 4 * (i + 1) ≤ frame.length := by
    rw [h, hW, hH]
    rw [hW, hH] at hi
    omega
  have := drawGo_getElem m i 0 frame hlen j hj
  simpa using this

/-- `Mandelbrot.draw` preserves the buffer length. -/
theorem draw_length (m : Mandelbrot) (frame : List ℕ) :
    (m.draw frame).length = frame.length :=
  drawGo_length m frame.length 0 frame (le_refl _)

/-- Shared characterization of the evaluator over the rational orbit:
either it returns `MAX_ITER` and no orbit point within the budget breaks the
threshold, or it returns the first index whose orbit point does. -/
theorem mandelbrot_char (m : Mandelbrot) (x y : ℕ) :
    (m.mandelbrot x y = MAX_ITER ∧
      ∀ k, k < MAX_ITER → normSq (zSeq (coordMap m x y) k) ≤ 4) ∨
    (m.mandelbrot x y < MAX_ITER ∧
      4 < normSq (zSeq (coordMap m x y) (m.mandelbrot x y)) ∧
      ∀ k, k < m.mandelbrot x y → normSq (zSeq (coordMap m x y) k) ≤ 4) := by
  have h0 : ((0, 0) : ℚ × ℚ) = zSeq (coordMap m x y) 0 := rfl
  rw [mandelbrot_eq, h0]
  rcases escapeLoop_spec (coordMap m x y) MAX_ITER 0 with ⟨h1, h2⟩ |
    ⟨j, hj1, hj2, hj3, hj4, hj5⟩
  · left
    exact ⟨h1, fun k hk => h2 k (by omega) (by omega)⟩
  · right
    rw [hj3]
    exact ⟨by omega, hj4, fun k hk => hj5 k (by omega) hk⟩

/-! ## Claim theorems -/

/-- C1: for every pixel coordinate and view state, the evaluator computes
exactly the escape-time algorithm: with `z₀ = 0` and `c` the mapped
coordinate, it returns the first `n < MAX_ITER = 100` at which `|zₙ| > 2`
(where `z_{k+1} = z_k² + c`), and returns `MAX_ITER = 100` when no such `n`
exists within the budget. -/
theorem mandelbrot_escape_time (m : Mandelbrot) (x y : ℕ) :
    m.mandelbrot x y ≤ MAX_ITER ∧
    (m.mandelbrot x y < MAX_ITER →
      2 < Complex.abs (zC (toComplex (coordMap m x y)) (m.mandelbrot x y)) ∧
      ∀ k, k < m.mandelbrot x y →
        Complex.abs (zC (toComplex (coordMap m x y)) k) ≤ 2) ∧
    (m.mandelbrot x y = MAX_ITER →
      ∀ k, k < MAX_ITER →
        Complex.abs (zC (toComplex (coordMap m x y)) k) ≤ 2) := by
  have hle : ∀ k, Complex.abs (zC (toComplex (coordMap m x y)) k) ≤ 2 ↔
      normSq (zSeq (coordMap m x y) k) ≤ 4 := by
    intro k
    rw [← toComplex_zSeq, ← not_lt, ← not_lt]
    exact not_congr (two_lt_abs_iff _)
  have hlt : ∀ k, 2 < Complex.abs (zC (toComplex (coordMap m x y)) k) ↔
      4 < normSq (zSeq (coordMap m x y) k) := by
    intro k
    rw [← toComplex_zSeq]
    exact two_lt_abs_iff _
  rcases mandelbrot_char m x y with ⟨h1, h2⟩ | ⟨h1, h2, h3⟩
  · refine ⟨le_of_eq h1, ?_, ?_⟩
    · intro hc
      rw [h1] at hc
      exact absurd hc (lt_irrefl _)
    · intro _ k hk
      exact (hle k).mpr (h2 k hk)
  · refine ⟨le_of_lt h1, ?_, ?_⟩
    · intro _
      exact ⟨(hlt _).mpr h2, fun k hk => (hle k).mpr (h3 k hk)⟩
    · intro hc
      rw [hc] at h1
      exact absurd h1 (lt_irrefl _)

theorem mandelbrot_escape_time_witness :
    2 < Complex.abs
      (zC (toComplex (coordMap Mandelbrot.new 0 0)) (Mandelbrot.new.mandelbrot 0 0)) :=
  ((mandelbrot_escape_time Mandelbrot.new 0 0).2.1
    (by rw [mandelbrot_new_00]; norm_num [MAX_ITER])).1

/-- C7: for every pixel coordinate within bounds and every view state, the
evaluator returns an iteration count in `[0, MAX_ITER]` with
`MAX_ITER = 100`. -/
theorem mandelbrot_in_range (m : Mandelbrot) (x y : ℕ)
    (hx : x < WIDTH) (hy : y < HEIGHT) :
    m.mandelbrot x y ≤ MAX_ITER :=
  mandelbrot_le_max m x y

theorem mandelbrot_in_range_witness :
    0 < WIDTH ∧ 0 < HEIGHT ∧ Mandelbrot.new.mandelbrot 0 0 ≤ MAX_ITER :=
  ⟨by norm_num [WIDTH], by norm_num [HEIGHT],
   mandelbrot_in_range Mandelbrot.new 0 0 (by norm_num [WIDTH])
     (by norm_num [HEIGHT])⟩

/-- C9: with `zoom = 1.0` and the default center, pixel `(700, 300)` maps
exactly to the complex origin and evaluates to `MAX_ITER = 100` (the origin
is in the Mandelbrot set). -/
theorem origin_pixel_in_set :
    coordMap Mandelbrot.new 700 300 = (0, 0) ∧
    Mandelbrot.new.mandelbrot 700 300 = MAX_ITER := by
  refine ⟨coordMap_new_origin, ?_⟩
  rw [mandelbrot_eq, coordMap_new_origin]
  exact escapeLoop_origin MAX_ITER 0

/-- C5 counterexample: at pixel `(0, 0)` of the initial view the mapped
coordinate `(-35/12, -5/4)` has modulus greater than 2, yet the evaluator
does not return 0: the loop tests `|z| > 2` with `z = 0` at `n = 0`, only
updates `z` to `c`, and escapes at `n = 1`. -/
theorem immediate_escape_counterexample :
    2 < Complex.abs (toComplex (coordMap Mandelbrot.new 0 0)) ∧
    Mandelbrot.new.mandelbrot 0 0 ≠ 0 :=
  ⟨(two_lt_abs_iff _).mpr normSq_new_00, by rw [mandelbrot_new_00]; omega⟩

/-- C5 amended: for every pixel whose mapped complex coordinate `c`
satisfies `|c| > 2`, the evaluator returns 1 (escape is detected on the
second loop iteration, after `z` has been updated from 0 to `c`). -/
theorem immediate_escape_amended (m : Mandelbrot) (x y : ℕ)
    (h : 2 < Complex.abs (toComplex (coordMap m x y))) :
    m.mandelbrot x y = 1 := by
  have h4 : 4 < normSq (coordMap m x y) := (two_lt_abs_iff _).mp h
  rw [mandelbrot_eq]
  rw [show MAX_ITER = 99 + 1 from rfl, escapeLoop_succ,
    if_neg (by rw [normSq_zero]; norm_num), zstep_zero]
  rw [show (99 : ℕ) = 98 + 1 from rfl, escapeLoop_succ, if_pos h4]

theorem immediate_escape_amended_witness :
    Mandelbrot.new.mandelbrot 0 0 = 1 :=
  immediate_escape_amended Mandelbrot.new 0 0
    ((two_lt_abs_iff _).mpr normSq_new_00)

/-- C3: for every pixel and every view state with positive zoom, the
coordinate mapping matches the specification formula: `zoom_width = 2.5 /
zoom`, pixel offsets taken from the buffer center, scaled by `zoom_width`
over the corresponding dimension, offset by the view center, aspect-ratio
factor `width / height` on the horizontal axis only. -/
theorem coordMap_matches_spec (m : Mandelbrot) (x y : ℕ) (h : 0 < m.zoom) :
    coordMap m x y = coordMapSpec m x y := by
  unfold coordMap coordMapSpec
  simp only [Prod.mk.injEq]
  constructor <;> ring

theorem coordMap_matches_spec_witness :
    0 < Mandelbrot.new.zoom ∧
    coordMap Mandelbrot.new 0 0 = coordMapSpec Mandelbrot.new 0 0 :=
  ⟨by norm_num [Mandelbrot.new],
   coordMap_matches_spec Mandelbrot.new 0 0 (by norm_num [Mandelbrot.new])⟩

/-- C8: each `advance` multiplies `zoom` by exactly `ZOOM_SPEED = 1.01` and
changes nothing else; starting from the initial zoom `1.0`, after `k` calls
the zoom is `1.0 * 1.01 ^ k`, stays positive, and strictly increases. -/
theorem advance_spec (m : Mandelbrot) (k : ℕ) :
    m.advance.zoom = m.zoom * ZOOM_SPEED ∧
    m.advance.center_x = m.center_x ∧
    m.advance.center_y = m.center_y ∧
    (Mandelbrot.advance^[k] Mandelbrot.new).zoom = 1 * (101 / 100 : ℚ) ^ k ∧
    0 < (Mandelbrot.advance^[k] Mandelbrot.new).zoom ∧
    (Mandelbrot.advance^[k] Mandelbrot.new).zoom <
      (Mandelbrot.advance^[k + 1] Mandelbrot.new).zoom := by
  have hzoom : ∀ j : ℕ,
      (Mandelbrot.advance^[j] Mandelbrot.new).zoom = (101 / 100 : ℚ) ^ j := by
    intro j
    induction j with
    | zero => simp [Mandelbrot.new]
    | succ n ih =>
      rw [Function.iterate_succ_apply']
      show (Mandelbrot.advance^[n] Mandelbrot.new).zoom * ZOOM_SPEED = _
      rw [ih, ZOOM_SPEED, pow_succ]
  refine ⟨rfl, rfl, rfl, ?_, ?_, ?_⟩
  · rw [hzoom]; ring
  · rw [hzoom]; positivity
  · rw [hzoom, hzoom, pow_succ]
    exact lt_mul_of_one_lt_right (by positivity) (by norm_num)

/-- C2: the renderer's color mapping sends `n = MAX_ITER` to opaque black
`(0, 0, 0, 255)` and any other evaluator output `n` to
`(min 255 (n*255/50), min 255 (n*255/100), 0, 255)` with truncating
integer division. -/
theorem draw_color_map (m : Mandelbrot) (x y : ℕ) :
    rgbaOf (m.mandelbrot x y) =
      if m.mandelbrot x y = MAX_ITER then [0, 0, 0, 255]
      else
        [min 255 (m.mandelbrot x y * 255 / 50),
         min 255 (m.mandelbrot x y * 255 / 100), 0, 255] := by
  unfold rgbaOf
  split
  · rfl
  · have e1 : min 255 (m.mandelbrot x y * 255 / 50) % 256 =
        min 255 (m.mandelbrot x y * 255 / 50) := by omega
    have e2 : min 255 (m.mandelbrot x y * 255 / 100) % 256 =
        min 255 (m.mandelbrot x y * 255 / 100) := by omega
    rw [e1, e2]

/-- C4: on a buffer of length `WIDTH * HEIGHT * 4` the renderer writes every
pixel exactly once: the length is preserved, the 4 bytes at offsets
`4*i .. 4*i+4` are exactly the RGBA bytes of pixel `(i % WIDTH, i / WIDTH)`
in that order, and the result is independent of the previous buffer
contents (every byte is overwritten, none untouched). -/
theorem draw_writes_every_pixel (m : Mandelbrot) (frame : List ℕ)
    (h : frame.length = WIDTH * HEIGHT * 4) :
    (m.draw frame).length = frame.length ∧
    (∀ i, i < WIDTH * HEIGHT → ∀ j, j < 4 →
      (m.draw frame)[4 * i + j]? =
        (rgbaOf (m.mandelbrot (i % WIDTH) (i / WIDTH)))[j]?) ∧
    (∀ frame₂ : List ℕ, frame₂.length = WIDTH * HEIGHT * 4 →
      m.draw frame = m.draw frame₂) := by
  have hW : WIDTH = 800 := rfl
  have hH : HEIGHT = 600 := rfl
  refine ⟨draw_length m frame,
    fun i hi j hj => draw_pixel_bytes m frame h i j hi hj, ?_⟩
  intro f2 h2
  apply List.ext_getElem?
  intro n
  by_cases hn : n < WIDTH * HEIGHT * 4
  · have hsplit : n = 4 * (n / 4) + n % 4 := by omega
    have hq : n / 4 < WIDTH * HEIGHT := by
      rw [hW, hH]
      rw [hW, hH] at hn
      omega
    have hr : n % 4 < 4 := by omega
    rw [hsplit, draw_pixel_bytes m frame h (n / 4) (n % 4) hq hr,
      draw_pixel_bytes m f2 h2 (n / 4) (n % 4) hq hr]
  · rw [List.getElem?_eq_none (by rw [draw_length, h]; omega),
      List.getElem?_eq_none (by rw [draw_length, h2]; omega)]

theorem draw_writes_every_pixel_witness :
    (Mandelbrot.new.draw (List.replicate (WIDTH * HEIGHT * 4) 0)).length =
      (List.replicate (WIDTH * HEIGHT * 4) (0 : ℕ)).length :=
  (draw_writes_every_pixel Mandelbrot.new _ (by simp)).1

/-- C10: after any render on an exactly sized buffer, every pixel's blue
byte (offset `4*i + 2`) is 0 and its alpha byte (offset `4*i + 3`) is 255,
in both the in-set and the escaped color branches. -/
theorem draw_opaque_no_blue (m : Mandelbrot) (frame : List ℕ)
    (h : frame.length = WIDTH * HEIGHT * 4) (i : ℕ)
    (hi : i < WIDTH * HEIGHT) :
    (m.draw frame)[4 * i + 2]? = some 0 ∧
    (m.draw frame)[4 * i + 3]? = some 255 := by
  have h2 := draw_pixel_bytes m frame h i 2 hi (by omega)
  have h3 := draw_pixel_bytes m frame h i 3 hi (by omega)
  rw [h2, h3]
  constructor <;> (unfold rgbaOf; split <;> rfl)

theorem draw_opaque_no_blue_witness :
    (Mandelbrot.new.draw (List.replicate (WIDTH * HEIGHT * 4) 0))[4 * 0 + 2]? =
      some 0 ∧
    (Mandelbrot.new.draw (List.replicate (WIDTH * HEIGHT * 4) 0))[4 * 0 + 3]? =
      some 255 :=
  draw_opaque_no_blue Mandelbrot.new _ (by simp) 0 (by norm_num [WIDTH, HEIGHT])

/-- C6 counterexample: on a 5-byte buffer (shorter than
`WIDTH * HEIGHT * 4`) the renderer does not signal any failure: it writes
the one complete 4-byte chunk with the colors of pixel `(0, 0)` and returns
normally, leaving the trailing byte untouched — best-effort partial
output. -/
theorem short_buffer_counterexample :
    Mandelbrot.new.draw [7, 7, 7, 7, 9] = [5, 2, 0, 255, 9] := by
  show drawGo Mandelbrot.new 0 [7, 7, 7, 7, 9] = [5, 2, 0, 255, 9]
  rw [drawGo_cons4]
  have h0 : (0 : ℕ) % WIDTH = 0 := Nat.zero_mod _
  have h1 : (0 : ℕ) / WIDTH = 0 := Nat.zero_div _
  rw [h0, h1, mandelbrot_new_00]
  rfl

/-- C6 amended: a buffer shorter than `WIDTH * HEIGHT * 4` is processed
best-effort with no panic, assertion, or error result: `draw` overwrites
exactly the `⌊len/4⌋` complete 4-byte chunks with pixel colors and leaves
the trailing `len % 4` bytes unchanged. -/
theorem short_buffer_amended (m : Mandelbrot) (frame : List ℕ)
    (hshort : frame.length < WIDTH * HEIGHT * 4) :
    (m.draw frame).length = frame.length ∧
    (∀ p, 4 * (p + 1) ≤ frame.length → ∀ j, j < 4 →
      (m.draw frame)[4 * p + j]? =
        (rgbaOf (m.mandelbrot (p % WIDTH) (p / WIDTH)))[j]?) ∧
    (∀ n, 4 * (frame.length / 4) ≤ n → (m.draw frame)[n]? = frame[n]?) := by
  refine ⟨draw_length m frame, ?_, ?_⟩
  · intro p hp j hj
    have := drawGo_getElem m p 0 frame hp j hj
    simpa using this
  · intro n hn
    exact drawGo_getElem_rem m frame.length 0 frame (le_refl _) n hn

theorem short_buffer_amended_witness :
    (Mandelbrot.new.draw [7, 7, 7, 7, 9]).length =
      ([7, 7, 7, 7, 9] : List ℕ).length :=
  (short_buffer_amended Mandelbrot.new [7, 7, 7, 7, 9]
    (by norm_num [WIDTH, HEIGHT])).1
